import Mathlib

/-!
# Verification of the SNMP OID codec (`oid.go`)

Shallow embedding of the Go package `snmp`, file `oid.go`, together with
theorems settling the frozen claims about its specification.

Conventions of the embedding:
* Go `uint16` arithmetic is `Nat` with explicit `% 65536` exactly where the
  Go code can wrap.
* Go `byte` values are `Nat`s below 256; text is a list of code points
  (`'.' = 46`, `'0'..'9' = 48..57`).
* The fallible Go functions return `Except`/`Option`; a Go runtime
  index-out-of-range failure is the explicit `DecodeResult.oob` outcome
  (respectively `none` for the payload-level function).
* The `io.Reader` handed to `decodeOID` is modelled as the sequence of the
  results its successive `Read` calls would produce: `source k` is the pair
  (bytes written, error) of the `k`-th call.
-/

/-- An SNMP OID: an ordered list of arcs.  In Go: `type ObjectIdentifier []uint16`;
here arcs are `Nat`s, with the `< 65536` range carried as hypotheses. -/
abbrev ObjectIdentifier := List Nat

/-! ## Generic digit expansion (little-endian), used to state encoder facts -/

/-- Little-endian base-`b` digits of `m` (no trailing zero digits; `0` has no
digits).  Only meaningful for `2 ≤ b`; smaller bases yield `[]`. -/
def digitsAux (b : Nat) (m : Nat) : List Nat :=
  if h : m = 0 ∨ b < 2 then []
  else m % b :: digitsAux b (m / b)
termination_by m
decreasing_by
  rw [not_or] at h
  exact Nat.div_lt_self (by omega) (by omega)

/-! ## Decoder: the base-128 accumulation loop of `decodeOID`

Go source (`oid.go`):
```
for i := 1; i < length; i++ {
  val := uint16(0)
  for b[i] >= 128 {
    val += uint16(b[i]) - 128
    val *= 128
    i++
  }
  val += uint16(b[i])
  oid = append(oid, val)
}
```
`decodeArcsAux val bs` is this loop with `val` the current accumulator and
`bs` the bytes from the current index on; `none` is the out-of-range index
hit when a continuation byte is the last byte of the buffer. -/
def decodeArcsAux (val : Nat) : List Nat → Option (List Nat)
  | [] => none
  | c :: rest =>
    if 128 ≤ c then
      decodeArcsAux ((val + (c - 128)) % 65536 * 128 % 65536) rest
    else
      match rest with
      | [] => some [(val + c) % 65536]
      | r :: rs =>
        Option.map (fun arcs => (val + c) % 65536 :: arcs) (decodeArcsAux 0 (r :: rs))

/-- The outer loop over `b[1..length-1]`: decodes a concatenation of base-128
groups into the list of arcs after the first two. -/
def decodeArcs : List Nat → Option (List Nat)
  | [] => some []
  | c :: rest => decodeArcsAux 0 (c :: rest)

/-- Decoding the whole `length`-byte buffer `b` of `decodeOID`: the merged
root byte `b[0]` gives the first two arcs (`b[0]/40`, `b[0]%40`), the rest is
the group sequence.  `none` models the Go index-out-of-range runtime failure
(empty buffer, or an unterminated group at the end). -/
def decodePayload : List Nat → Option (List Nat)
  | [] => none
  | b0 :: rest =>
    Option.map (fun arcs => b0 / 40 :: b0 % 40 :: arcs) (decodeArcs rest)

/-- The outcome of one `Read` call on the byte source: the bytes the call
produced and the error it returned (`none` = `nil`). -/
structure ReadStep where
  data : List Nat
  err : Option Nat
deriving DecidableEq

/-- The observable result of `decodeOID`: success and read-error both carry
the byte count the Go function returns; `oob` is the runtime
index-out-of-range failure of the unchecked buffer indexing. -/
inductive DecodeResult where
  | ok (oid : List Nat) (bytesRead : Nat)
  | readErr (e : Nat) (bytesRead : Nat)
  | oob
deriving DecidableEq

/-- Function `decodeOID length r` from `oid.go`.  The Go code allocates a zeroed
`length`-byte buffer, performs a single `r.Read(b)`, adds the returned count
to `bytesRead`, returns early on a read error, and then decodes the buffer
(zero beyond the bytes actually read).  The source is modelled by the
sequence of its `Read` results; only `source 0` is ever consumed. -/
def decodeOID (length : Nat) (source : Nat → ReadStep) : DecodeResult :=
  let st := source 0
  let n := min st.data.length length
  match st.err with
  | some e => .readErr e n
  | none =>
    match decodePayload (st.data.take length ++ List.replicate (length - n) 0) with
    | none => .oob
    | some oid => .ok oid n

/-! ## Encoder -/

/-- Modelled from the spec: the ambient byte-order reversal helper
`reverseSlice` (spec, sections 1 and 9) is not part of `oid.go`; its contract
is to reverse the slice. -/
def reverseSlice (b : List Nat) : List Nat := b.reverse

/-- The loop of `encodeOIDUint` for the quotient `i / 128`: Go
```
for i > 0 {
  b = append(b, 128+byte(i)%128)
  i /= 128
}
```
appends `128 + i % 128` (note `byte(i) % 128 = i % 128`) while `i > 0`. -/
def encodeOIDUintAux (i : Nat) : List Nat :=
  if i = 0 then []
  else (128 + i % 128) :: encodeOIDUintAux (i / 128)
termination_by i
decreasing_by exact Nat.div_lt_self (by omega) (by omega)

/-- Function `encodeOIDUint` from `oid.go`: one byte for `i < 128`, otherwise the
little-endian group bytes (low group first, continuation bit on all later
groups) reversed into wire order. -/
def encodeOIDUint (i : Nat) : List Nat :=
  if i < 128 then [i]
  else reverseSlice (i % 128 :: encodeOIDUintAux (i / 128))

/-- Modelled from the spec: the external TLV header collaborator
`encodeHeaderSequence` (spec, section 6): `[tag, length]` in BER short form
for lengths below 128, otherwise the long form
`[tag, 0x80 + k, k big-endian length bytes]`. -/
def encodeHeaderSequence (tag payloadLength : Nat) : List Nat :=
  if payloadLength < 128 then [tag, payloadLength]
  else tag :: (128 + (digitsAux 256 payloadLength).length)
         :: (digitsAux 256 payloadLength).reverse

/-- The payload-building loop of `Encode`: `for i := 2; i < len(oid); i++`
appends `encodeOIDUint(oid[i])`; here applied to `oid[2:]`. -/
def concatOIDUints : List Nat → List Nat
  | [] => []
  | a :: rest => encodeOIDUint a ++ concatOIDUints rest

/-- The payload bytes `b` built by `Encode`: fixed lead byte `0x2b` then the
encodings of the arcs from index 2 on. -/
def encodePayload (oid : List Nat) : List Nat :=
  43 :: concatOIDUints (oid.drop 2)

/-- The observable result of `ObjectIdentifier.Encode`: the produced bytes,
or one of its two errors (invalid length / does not start with .1.3). -/
inductive EncodeResult where
  | ok (bytes : List Nat)
  | lengthErr
  | rootErr
deriving DecidableEq

/-- Method `ObjectIdentifier.Encode` from `oid.go`:
```
if len(oid) < 2 { return nil, errors.New("snmp: invalid ObjectIdentifier length") }
if oid[0] != 1 && oid[1] != 3 { return nil, errors.New("ObjectIdentifier does not start with .1.3") }
b := ...; b = append(b, 0x2b); ...
return append(encodeHeaderSequence(0x6, len(b)), b...), nil
``` -/
def ObjectIdentifier.Encode (oid : ObjectIdentifier) : EncodeResult :=
  if oid.length < 2 then .lengthErr
  else if oid.getD 0 0 ≠ 1 ∧ oid.getD 1 0 ≠ 3 then .rootErr
  else .ok (encodeHeaderSequence 6 (encodePayload oid).length ++ encodePayload oid)

/-! ## Parser and formatter -/

/-- The two error classes of Go `strconv.ParseUint`: `ErrSyntax` (empty
token or a non-digit) and `ErrRange` (value beyond the 16-bit range). -/
inductive ParseErr where
  | malformed
  | range
deriving DecidableEq

/-- Equality of `Except` results is decidable; needed to evaluate the
parser on concrete inputs. -/
instance instDecEqExcept {ε α : Type} [DecidableEq ε] [DecidableEq α] :
    DecidableEq (Except ε α)
  | .ok a, .ok b =>
    match decEq a b with
    | isTrue h => isTrue (h ▸ rfl)
    | isFalse h => isFalse (fun hc => h (by cases hc; rfl))
  | .error e, .error f =>
    match decEq e f with
    | isTrue h => isTrue (h ▸ rfl)
    | isFalse h => isFalse (fun hc => h (by cases hc; rfl))
  | .ok _, .error _ => isFalse (fun hc => by cases hc)
  | .error _, .ok _ => isFalse (fun hc => by cases hc)

/-- Decimal digit test on a code point (`'0'..'9'` are 48..57). -/
def isDigitCode (c : Nat) : Bool := 48 ≤ c && c ≤ 57

/-- The numeric value of a token of decimal digit code points. -/
def decValue (t : List Nat) : Nat :=
  t.foldl (fun a c => a * 10 + (c - 48)) 0

/-- Go `strconv.ParseUint(part, 10, 16)`: rejects the empty token and any
non-digit (syntax), and any value above 65535 (range). -/
def parseUint16 (t : List Nat) : Except ParseErr Nat :=
  if t.isEmpty then .error .malformed
  else if t.all isDigitCode then
    if decValue t ≤ 65535 then .ok (decValue t) else .error .range
  else .error .malformed

/-- Go `strings.Trim(str, ".")`: remove leading and trailing dots. -/
def trimDots (s : List Nat) : List Nat :=
  (((s.dropWhile (fun c => c == 46)).reverse.dropWhile (fun c => c == 46))).reverse

/-- Go `strings.Split(s, ".")` for the one-character separator: the (always
nonempty) list of the maximal dot-free chunks; the empty string splits into
one empty token. -/
def splitDot : List Nat → List (List Nat)
  | [] => [[]]
  | c :: rest =>
    if c = 46 then [] :: splitDot rest
    else
      match splitDot rest with
      | [] => [[c]]
      | t :: ts => (c :: t) :: ts

/-- The token loop of `ParseOID`: parse every token left to right, abort on
the first error, append the values in order. -/
def parseTokens : List (List Nat) → Except ParseErr (List Nat)
  | [] => .ok []
  | t :: ts =>
    match parseUint16 t with
    | .error e => .error e
    | .ok n =>
      match parseTokens ts with
      | .error e => .error e
      | .ok ns => .ok (n :: ns)

/-- Function `ParseOID` from `oid.go`: trim dots, split on dots, parse every token. -/
def ParseOID (s : List Nat) : Except ParseErr (List Nat) :=
  parseTokens (splitDot (trimDots s))

/-- Modelled from the spec: `fmt.Sprintf("%d", part)` (the formatting verb is
external to `oid.go`): the decimal digit code points of `part`, without sign
or padding. -/
def natToDec (n : Nat) : List Nat :=
  if n = 0 then [48]
  else ((digitsAux 10 n).map (fun d => 48 + d)).reverse

/-- Method `ObjectIdentifier.String` from `oid.go`: for each arc append a dot and
its decimal digits. -/
def ObjectIdentifier.toText : List Nat → List Nat
  | [] => []
  | part :: rest => (46 :: natToDec part) ++ ObjectIdentifier.toText rest

/-! ## Spec-side definitions (used only to state refinement-style claims) -/

/-- Following the spec's words (section 4.3): the big-endian base-128 groups
of `v`, most-significant group first. -/
def specBase128Groups (v : Nat) : List Nat :=
  (digitsAux 128 v).reverse

/-- Following the spec's words (section 4.3): set the continuation bit
(0x80) on every group except the last. -/
def specMarkContinuation : List Nat → List Nat
  | [] => []
  | [d] => [d]
  | d :: rest => (128 + d) :: specMarkContinuation rest

/-- The mathematical value of a big-endian base-128 digit list (no 16-bit
truncation); used to state the overflow claim. -/
def groupValue (ds : List Nat) : Nat :=
  ds.foldl (fun a d => a * 128 + d) 0

/-- The decoder's 16-bit accumulator after consuming the continuation bytes
with digit values `ds`, having started at `val`: each step is Go's
`val += d; val *= 128` in `uint16` arithmetic. -/
def fold16 (val : Nat) (ds : List Nat) : Nat :=
  ds.foldl (fun a d => (a + d) % 65536 * 128 % 65536) val


/-! ## Lemmas about digit expansions -/

theorem digitsAux_zero (b : Nat) : digitsAux b 0 = [] := by
  rw [digitsAux]
  simp

theorem digitsAux_pos (b m : Nat) (hb : 2 ≤ b) (hm : m ≠ 0) :
    digitsAux b m = m % b :: digitsAux b (m / b) := by
  rw [digitsAux]
  rw [dif_neg (by omega)]

theorem digitsAux_lt (b : Nat) (hb : 2 ≤ b) :
    ∀ m, ∀ d ∈ digitsAux b m, d < b := by
  intro m
  induction m using Nat.strong_induction_on with
  | _ m ih =>
    by_cases hm : m = 0
    · subst hm
      rw [digitsAux_zero]
      intro d hd
      simp at hd
    · rw [digitsAux_pos b m hb hm]
      intro d hd
      rcases List.mem_cons.mp hd with h1 | h2
      · subst h1
        exact Nat.mod_lt _ (by omega)
      · exact ih (m / b) (Nat.div_lt_self (by omega) (by omega)) d h2

theorem digitsAux_ne_nil (b m : Nat) (hb : 2 ≤ b) (hm : m ≠ 0) :
    digitsAux b m ≠ [] := by
  rw [digitsAux_pos b m hb hm]
  simp

theorem digits_horner (b : Nat) (hb : 2 ≤ b) :
    ∀ m acc, ((digitsAux b m).reverse).foldl (fun a d => a * b + d) acc
      = acc * b ^ (digitsAux b m).length + m := by
  intro m
  induction m using Nat.strong_induction_on with
  | _ m ih =>
    intro acc
    by_cases hm : m = 0
    · subst hm
      simp [digitsAux_zero]
    · rw [digitsAux_pos b m hb hm]
      simp only [List.reverse_cons, List.foldl_append, List.foldl_cons,
        List.foldl_nil, List.length_cons]
      rw [ih (m / b) (Nat.div_lt_self (by omega) (by omega))]
      have hdm : b * (m / b) + m % b = m := Nat.div_add_mod m b
      calc (acc * b ^ (digitsAux b (m / b)).length + m / b) * b + m % b
          = acc * (b ^ (digitsAux b (m / b)).length * b) + (b * (m / b) + m % b) := by
            ring
        _ = acc * b ^ ((digitsAux b (m / b)).length + 1) + m := by
            rw [pow_succ, hdm]

/-- The mathematical value of the big-endian digits of `m` is `m`. -/
theorem groupValue_specBase128Groups (m : Nat) :
    groupValue (specBase128Groups m) = m := by
  unfold groupValue specBase128Groups
  rw [digits_horner 128 (by omega) m 0]
  simp

theorem groupValue_append_singleton (ds : List Nat) (t : Nat) :
    groupValue (ds ++ [t]) = groupValue ds * 128 + t := by
  unfold groupValue
  simp [List.foldl_append]

/-! ## Lemmas about the decoder loop -/

theorem decodeArcs_eq_aux (l : List Nat) (hl : l ≠ []) :
    decodeArcs l = decodeArcsAux 0 l := by
  cases l with
  | nil => exact absurd rfl hl
  | cons c rest => rfl

/-- Consuming one full base-128 group (continuation digits `ds`, terminal
byte `t`): the decoder appends the accumulated 16-bit value and continues
with the remaining bytes. -/
theorem decodeArcsAux_groups (ds : List Nat) :
    ∀ val t bs, t < 128 →
      decodeArcsAux val (ds.map (fun d => 128 + d) ++ t :: bs)
        = Option.map (fun l => (fold16 val ds + t) % 65536 :: l) (decodeArcs bs) := by
  induction ds with
  | nil =>
    intro val t bs ht
    simp only [List.map_nil, List.nil_append, fold16, List.foldl_nil]
    cases bs with
    | nil => simp [decodeArcsAux, decodeArcs, Nat.not_le.mpr ht]
    | cons r rs => simp [decodeArcsAux, decodeArcs, Nat.not_le.mpr ht]
  | cons d ds ih =>
    intro val t bs ht
    simp only [List.map_cons, List.cons_append]
    have step : decodeArcsAux val ((128 + d) :: (ds.map (fun d => 128 + d) ++ t :: bs))
        = decodeArcsAux ((val + d) * 128 % 65536) (ds.map (fun d => 128 + d) ++ t :: bs) := by
      rw [decodeArcsAux.eq_def]
      dsimp only
      rw [if_pos (by omega)]
      rw [Nat.add_sub_cancel_left, Nat.mod_mul_mod]
    rw [step, ih ((val + d) * 128 % 65536) t bs ht]
    have hfold : fold16 val (d :: ds) = fold16 ((val + d) * 128 % 65536) ds := by
      unfold fold16
      simp only [List.foldl_cons]
      rw [Nat.mod_mul_mod]
    rw [hfold]

/-- The truncating accumulator agrees with the untruncated fold modulo
2^16. -/
theorem fold16_modEq (ds : List Nat) :
    ∀ val val', Nat.ModEq 65536 val val' →
      Nat.ModEq 65536 (fold16 val ds) (ds.foldl (fun a d => (a + d) * 128) val') := by
  induction ds with
  | nil => intro val val' h; exact h
  | cons d ds ih =>
    intro val val' h
    have hstep : Nat.ModEq 65536 ((val + d) % 65536 * 128 % 65536) ((val' + d) * 128) := by
      have h1 : Nat.ModEq 65536 ((val + d) % 65536 * 128 % 65536) ((val + d) % 65536 * 128) :=
        Nat.mod_modEq _ _
      have h2 : Nat.ModEq 65536 ((val + d) % 65536 * 128) ((val + d) * 128) :=
        Nat.ModEq.mul_right 128 (Nat.mod_modEq _ _)
      have h3 : Nat.ModEq 65536 ((val + d) * 128) ((val' + d) * 128) :=
        Nat.ModEq.mul_right 128 (Nat.ModEq.add_right d h)
      exact (h1.trans h2).trans h3
    exact ih _ _ hstep

/-- The untruncated fold is the big-endian group value, shifted once more. -/
theorem foldl_shift_eq_groupValue (ds : List Nat) :
    ∀ v, ds.foldl (fun a d => (a + d) * 128) (v * 128)
      = ds.foldl (fun a d => a * 128 + d) v * 128 := by
  induction ds with
  | nil => intro v; rfl
  | cons d ds ih =>
    intro v
    simp only [List.foldl_cons]
    exact ih (v * 128 + d)

/-- The arc value the decoder appends for a group with continuation digits
`ds` and terminal byte `t`, started at accumulator 0, is the group's
mathematical value reduced modulo 2^16. -/
theorem fold16_arc (ds : List Nat) (t : Nat) :
    (fold16 0 ds + t) % 65536 = (groupValue ds * 128 + t) % 65536 := by
  have h1 : Nat.ModEq 65536 (fold16 0 ds) (ds.foldl (fun a d => (a + d) * 128) 0) :=
    fold16_modEq ds 0 0 rfl
  have h2 : ds.foldl (fun a d => (a + d) * 128) 0 = groupValue ds * 128 := by
    have := foldl_shift_eq_groupValue ds 0
    simpa [groupValue] using this
  have h3 : Nat.ModEq 65536 (fold16 0 ds + t) (groupValue ds * 128 + t) := by
    rw [← h2]
    exact Nat.ModEq.add_right t h1
  exact h3

/-! ## Lemmas about the base-128 encoder -/

theorem encodeOIDUintAux_eq_digits :
    ∀ i, encodeOIDUintAux i = (digitsAux 128 i).map (fun d => 128 + d) := by
  intro i
  induction i using Nat.strong_induction_on with
  | _ i ih =>
    by_cases hi : i = 0
    · subst hi
      rw [encodeOIDUintAux, digitsAux_zero]
      simp
    · rw [encodeOIDUintAux, digitsAux_pos 128 i (by omega) hi]
      simp only [hi, if_false, List.map_cons]
      rw [ih (i / 128) (Nat.div_lt_self (by omega) (by omega))]

theorem encodeOIDUint_lt (v : Nat) (hv : v < 128) : encodeOIDUint v = [v] := by
  rw [encodeOIDUint, if_pos hv]

theorem encodeOIDUint_ge (v : Nat) (hv : 128 ≤ v) :
    encodeOIDUint v
      = (specBase128Groups (v / 128)).map (fun d => 128 + d) ++ [v % 128] := by
  rw [encodeOIDUint, if_neg (by omega)]
  rw [reverseSlice, encodeOIDUintAux_eq_digits]
  rw [List.reverse_cons, ← List.map_reverse]
  rfl

theorem encodeOIDUint_ne_nil (v : Nat) : encodeOIDUint v ≠ [] := by
  by_cases hv : v < 128
  · rw [encodeOIDUint_lt v hv]
    simp
  · rw [encodeOIDUint_ge v (by omega)]
    simp

theorem specMarkContinuation_append (l : List Nat) (d : Nat) :
    specMarkContinuation (l ++ [d]) = l.map (fun x => 128 + x) ++ [d] := by
  induction l with
  | nil => rfl
  | cons x l ih =>
    cases l with
    | nil => rfl
    | cons y l' =>
      simp only [List.cons_append, List.map_cons] at ih ⊢
      rw [specMarkContinuation]
      rw [ih]
      simp

/-- For `128 ≤ v` the encoder's output is exactly the spec's description:
the big-endian groups with the continuation bit on all but the last. -/
theorem encodeOIDUint_eq_spec (v : Nat) (hv : 128 ≤ v) :
    encodeOIDUint v = specMarkContinuation (specBase128Groups v) := by
  have hsplit : specBase128Groups v
      = specBase128Groups (v / 128) ++ [v % 128] := by
    unfold specBase128Groups
    rw [digitsAux_pos 128 v (by omega) (by omega)]
    rw [List.reverse_cons]
  rw [hsplit, specMarkContinuation_append, encodeOIDUint_ge v hv]

/-! ## Arc-level round trip -/

/-- Decoding the encoder's bytes for one arc `v < 2^16` recovers `v` and
proceeds with the remaining bytes. -/
theorem decode_encodeOIDUint (v : Nat) (hv : v < 65536) (bs : List Nat) :
    decodeArcsAux 0 (encodeOIDUint v ++ bs)
      = Option.map (fun l => v :: l) (decodeArcs bs) := by
  by_cases hlt : v < 128
  · rw [encodeOIDUint_lt v hlt]
    have h := decodeArcsAux_groups [] 0 v bs hlt
    simpa [fold16, Nat.mod_eq_of_lt hv] using h
  · rw [encodeOIDUint_ge v (by omega)]
    rw [List.append_assoc, List.singleton_append]
    have hm : v % 128 < 128 := Nat.mod_lt _ (by omega)
    have h := decodeArcsAux_groups (specBase128Groups (v / 128)) 0 (v % 128) bs hm
    rw [h, fold16_arc, groupValue_specBase128Groups]
    have hv' : (v / 128 * 128 + v % 128) % 65536 = v := by
      have : v / 128 * 128 + v % 128 = v := by omega
      rw [this, Nat.mod_eq_of_lt hv]
    rw [hv']

/-- Decoding the concatenated encodings of a list of 16-bit arcs recovers
the list. -/
theorem decodeArcs_concat (arcs : List Nat) (h : ∀ a ∈ arcs, a < 65536) :
    decodeArcs (concatOIDUints arcs) = some arcs := by
  induction arcs with
  | nil => rfl
  | cons a rest ih =>
    have ha : a < 65536 := h a (List.mem_cons_self a rest)
    have hrest : ∀ x ∈ rest, x < 65536 := fun x hx => h x (List.mem_cons_of_mem a hx)
    rw [concatOIDUints]
    rw [decodeArcs_eq_aux _ (by simp [encodeOIDUint_ne_nil a])]
    rw [decode_encodeOIDUint a ha]
    rw [ih hrest]
    rfl

/-- Decoding the payload `Encode` builds for `1.3.…` recovers the OID. -/
theorem decodePayload_encodePayload (rest : List Nat) (h : ∀ a ∈ rest, a < 65536) :
    decodePayload (encodePayload (1 :: 3 :: rest)) = some (1 :: 3 :: rest) := by
  show decodePayload (43 :: concatOIDUints rest) = _
  rw [decodePayload]
  rw [decodeArcs_concat rest h]
  rfl

/-! ## Parser lemmas -/

theorem splitDot_ne_nil (s : List Nat) : splitDot s ≠ [] := by
  cases s with
  | nil => simp [splitDot]
  | cons c rest =>
    by_cases hc : c = 46
    · simp [splitDot, hc]
    · cases h2 : splitDot rest with
      | nil => simp [splitDot, hc, h2]
      | cons t ts => simp [splitDot, hc, h2]

theorem splitDot_block (blk : List Nat) (hblk : ∀ c ∈ blk, c ≠ 46) :
    ∀ tail, splitDot (blk ++ 46 :: tail) = blk :: splitDot tail := by
  induction blk with
  | nil => intro tail; simp [splitDot]
  | cons c blk' ih =>
    intro tail
    have hc : c ≠ 46 := hblk c (List.mem_cons_self c blk')
    have hblk' : ∀ x ∈ blk', x ≠ 46 := fun x hx => hblk x (List.mem_cons_of_mem c hx)
    simp only [List.cons_append]
    rw [splitDot.eq_def]
    simp only [hc, if_false]
    rw [ih hblk' tail]

theorem splitDot_single (blk : List Nat) (hblk : ∀ c ∈ blk, c ≠ 46) :
    splitDot blk = [blk] := by
  induction blk with
  | nil => rfl
  | cons c blk' ih =>
    have hc : c ≠ 46 := hblk c (List.mem_cons_self c blk')
    have hblk' : ∀ x ∈ blk', x ≠ 46 := fun x hx => hblk x (List.mem_cons_of_mem c hx)
    rw [splitDot.eq_def]
    simp only [hc, if_false]
    rw [ih hblk']

theorem parseUint16_ok_le (t : List Nat) (n : Nat) (h : parseUint16 t = .ok n) :
    n ≤ 65535 := by
  unfold parseUint16 at h
  split_ifs at h with h1 h2 h3
  · injection h with h
    omega

/-- Every token parsed by the loop is in range; success also preserves the
token count. -/
theorem parseTokens_ok_bounds :
    ∀ ts oid, parseTokens ts = .ok oid →
      (∀ a ∈ oid, a ≤ 65535) ∧ oid.length = ts.length := by
  intro ts
  induction ts with
  | nil =>
    intro oid h
    rw [parseTokens] at h
    injection h with h
    subst h
    simp
  | cons t ts ih =>
    intro oid h
    rw [parseTokens.eq_def] at h
    dsimp only at h
    cases h1 : parseUint16 t with
    | error e => rw [h1] at h; cases h
    | ok n =>
      rw [h1] at h
      cases h2 : parseTokens ts with
      | error e => rw [h2] at h; cases h
      | ok ns =>
        rw [h2] at h
        injection h with h
        subst h
        obtain ⟨hb, hl⟩ := ih ns h2
        refine ⟨?_, by simp [hl]⟩
        intro a ha
        rcases List.mem_cons.mp ha with h3 | h3
        · subst h3; exact parseUint16_ok_le t a h1
        · exact hb a h3

theorem parseTokens_error_of_mem :
    ∀ ts t e, t ∈ ts → parseUint16 t = .error e →
      ∃ e', parseTokens ts = .error e' := by
  intro ts
  induction ts with
  | nil => intro t e ht _; cases ht
  | cons t' ts' ih =>
    intro t e ht he
    rcases List.mem_cons.mp ht with h1 | h1
    · subst h1
      exact ⟨e, by rw [parseTokens.eq_def]; dsimp only; rw [he]⟩
    · cases h2 : parseUint16 t' with
      | error e2 => exact ⟨e2, by rw [parseTokens.eq_def]; dsimp only; rw [h2]⟩
      | ok n =>
        obtain ⟨e', he'⟩ := ih t e h1 he
        exact ⟨e', by rw [parseTokens.eq_def]; dsimp only; rw [h2, he']⟩

/-! ## Formatter lemmas -/

theorem natToDec_digits (n : Nat) : ∀ c ∈ natToDec n, 48 ≤ c ∧ c ≤ 57 := by
  unfold natToDec
  by_cases hn : n = 0
  · simp [hn]
  · simp only [hn, if_false]
    intro c hc
    rw [List.mem_reverse] at hc
    obtain ⟨d, hd, rfl⟩ := List.mem_map.mp hc
    have := digitsAux_lt 10 (by omega) n d hd
    omega

theorem natToDec_ne_nil (n : Nat) : natToDec n ≠ [] := by
  unfold natToDec
  by_cases hn : n = 0
  · simp [hn]
  · simp only [hn, if_false]
    simp [digitsAux_ne_nil 10 n (by omega) hn]

theorem foldl_dec_map (l : List Nat) :
    ∀ acc, (l.map (fun d => 48 + d)).foldl (fun a c => a * 10 + (c - 48)) acc
      = l.foldl (fun a d => a * 10 + d) acc := by
  induction l with
  | nil => intro acc; rfl
  | cons d l ih =>
    intro acc
    simp only [List.map_cons, List.foldl_cons, Nat.add_sub_cancel_left]
    exact ih _

theorem decValue_natToDec (n : Nat) : decValue (natToDec n) = n := by
  unfold decValue natToDec
  by_cases hn : n = 0
  · simp [hn]
  · simp only [hn, if_false]
    rw [← List.map_reverse, foldl_dec_map]
    rw [digits_horner 10 (by omega) n 0]
    simp

theorem parseUint16_natToDec (n : Nat) (hn : n ≤ 65535) :
    parseUint16 (natToDec n) = .ok n := by
  unfold parseUint16
  rw [if_neg (by simp [List.isEmpty_iff, natToDec_ne_nil n])]
  rw [if_pos, if_pos (by rw [decValue_natToDec]; omega)]
  · rw [decValue_natToDec]
  · rw [List.all_eq_true]
    intro c hc
    have := natToDec_digits n c hc
    simp [isDigitCode]
    omega

theorem parseTokens_map_natToDec (oid : List Nat) (h : ∀ a ∈ oid, a ≤ 65535) :
    parseTokens (oid.map natToDec) = .ok oid := by
  induction oid with
  | nil => rfl
  | cons a rest ih =>
    have ha : a ≤ 65535 := h a (List.mem_cons_self a rest)
    have hrest : ∀ x ∈ rest, x ≤ 65535 := fun x hx => h x (List.mem_cons_of_mem a hx)
    simp only [List.map_cons]
    rw [parseTokens.eq_def]
    dsimp only
    rw [parseUint16_natToDec a ha, ih hrest]

theorem toText_cons (a : Nat) (rest : List Nat) :
    ObjectIdentifier.toText (a :: rest)
      = 46 :: (natToDec a ++ ObjectIdentifier.toText rest) := rfl

/-- The last code point of a formatted, nonempty OID is a decimal digit. -/
theorem toText_last_digit :
    ∀ rest a, ∃ d l, (natToDec a ++ ObjectIdentifier.toText rest).reverse = d :: l
      ∧ 48 ≤ d ∧ d ≤ 57 := by
  intro rest
  induction rest with
  | nil =>
    intro a
    simp only [ObjectIdentifier.toText, List.append_nil]
    cases h : (natToDec a).reverse with
    | nil => exact absurd (by simpa using h) (natToDec_ne_nil a)
    | cons d l =>
      have hd : d ∈ natToDec a := by
        rw [← List.mem_reverse, h]
        exact List.mem_cons_self d l
      obtain ⟨h1, h2⟩ := natToDec_digits a d hd
      exact ⟨d, l, rfl, h1, h2⟩
  | cons b rs ih =>
    intro a
    obtain ⟨d, l, hdl, h1, h2⟩ := ih b
    refine ⟨d, l ++ ((natToDec a ++ [46]).reverse), ?_, h1, h2⟩
    rw [toText_cons]
    have : natToDec a ++ 46 :: (natToDec b ++ ObjectIdentifier.toText rs)
        = (natToDec a ++ [46]) ++ (natToDec b ++ ObjectIdentifier.toText rs) := by
      simp
    rw [this, List.reverse_append, hdl]
    simp

/-- Trimming the formatter's output removes exactly the leading dot. -/
theorem trimDots_toText (a : Nat) (rest : List Nat) :
    trimDots (ObjectIdentifier.toText (a :: rest))
      = natToDec a ++ ObjectIdentifier.toText rest := by
  obtain ⟨c, cs, hc⟩ := List.exists_cons_of_ne_nil (natToDec_ne_nil a)
  have hcdig : 48 ≤ c ∧ c ≤ 57 := by
    apply natToDec_digits a
    rw [hc]
    exact List.mem_cons_self c cs
  have hcne : (c == 46) = false := by
    simp only [beq_eq_false_iff_ne, ne_eq]
    omega
  unfold trimDots
  rw [toText_cons]
  rw [List.dropWhile_cons]
  simp only [beq_self_eq_true, if_true]
  have hfront : List.dropWhile (fun c => c == 46)
      (natToDec a ++ ObjectIdentifier.toText rest)
      = natToDec a ++ ObjectIdentifier.toText rest := by
    rw [hc, List.cons_append, List.dropWhile_cons, hcne]
    simp
  rw [hfront]
  obtain ⟨d, l, hdl, h1, h2⟩ := toText_last_digit rest a
  rw [hdl, List.dropWhile_cons]
  have hdne : (d == 46) = false := by
    simp only [beq_eq_false_iff_ne, ne_eq]
    omega
  rw [hdne]
  simp only [Bool.false_eq_true, if_false]
  rw [← hdl, List.reverse_reverse]

/-- Splitting the trimmed formatter output recovers one token per arc. -/
theorem splitDot_toText :
    ∀ rest a, splitDot (natToDec a ++ ObjectIdentifier.toText rest)
      = natToDec a :: rest.map natToDec := by
  intro rest
  induction rest with
  | nil =>
    intro a
    simp only [ObjectIdentifier.toText, List.append_nil, List.map_nil]
    apply splitDot_single
    intro c hc
    have := natToDec_digits a c hc
    omega
  | cons b rs ih =>
    intro a
    rw [toText_cons]
    rw [splitDot_block (natToDec a)
      (fun c hc => by have := natToDec_digits a c hc; omega)]
    rw [ih b]
    simp

/-! ## Claim theorems -/

/-- C1: the claim says the decoder loops issuing further reads until
`length` bytes are obtained, or terminally fails and reports a short-read
error with the consumed count.  The code issues exactly one `Read`: with
`length = 2` and a source that answers every call with the single byte
`0x2b` and no error, the decoder neither reads again (even when a second
call would return more bytes) nor fails; it decodes the zero-padded buffer
and returns OID `.1.3.0` with only 1 byte consumed. -/
theorem claim_c1_single_read :
    decodeOID 2 (fun _ => ⟨[43], none⟩) = .ok [1, 3, 0] 1
    ∧ decodeOID 2 (fun k => if k = 0 then ⟨[43], none⟩ else ⟨[6], none⟩)
        = .ok [1, 3, 0] 1 := by decide

/-- C2: the claim says a base-128 group still awaiting its terminal byte at
the declared-length boundary yields a structured malformed-input error and
never an out-of-bounds access.  The code's inner loop increments the index
unchecked: with `length = 2` and the fully delivered payload
`[0x2b, 0x81]` it indexes one past the buffer (a Go runtime panic), the
`oob` outcome of the embedding. -/
theorem claim_c2_unterminated_group :
    decodeOID 2 (fun _ => ⟨[43, 129], none⟩) = .oob := by decide

/-- C3: for an OID of length at least 2, `Encode` rejects with the root
error exactly when the first arc differs from 1 AND the second differs
from 3; if the first arc is 1 or the second is 3 the check passes and the
encoded bytes are produced. -/
theorem claim_c3_root_validation (a b : Nat) (rest : List Nat) :
    (ObjectIdentifier.Encode (a :: b :: rest) = .rootErr ↔ a ≠ 1 ∧ b ≠ 3)
    ∧ (a = 1 ∨ b = 3 →
        ObjectIdentifier.Encode (a :: b :: rest)
          = .ok (encodeHeaderSequence 6 (encodePayload (a :: b :: rest)).length
              ++ encodePayload (a :: b :: rest))) := by
  have hE : ObjectIdentifier.Encode (a :: b :: rest)
      = if a ≠ 1 ∧ b ≠ 3 then .rootErr
        else .ok (encodeHeaderSequence 6 (encodePayload (a :: b :: rest)).length
            ++ encodePayload (a :: b :: rest)) := by
    unfold ObjectIdentifier.Encode
    rw [if_neg (by simp)]
    rfl
  constructor
  · rw [hE]
    by_cases hc : a ≠ 1 ∧ b ≠ 3
    · simp [hc]
    · rw [if_neg hc]
      simp [hc]
  · intro hor
    rw [hE, if_neg (by tauto)]

theorem claim_c3_root_validation_witness :
    ObjectIdentifier.Encode [1, 3] = .ok [6, 1, 43] := by
  have h := (claim_c3_root_validation 1 3 []).2 (Or.inl rfl)
  simpa [encodePayload, concatOIDUints, encodeHeaderSequence] using h

/-- C4: for an OID `1.3.…` whose remaining arcs are 16-bit values, `Encode`
succeeds, and decoding its payload (the bytes after the TLV header) with
declared length equal to the payload length, from a source delivering the
whole payload, returns exactly the original OID and reports the full
payload length as consumed. -/
theorem claim_c4_round_trip (rest : List Nat) (h : ∀ a ∈ rest, a < 65536) :
    ObjectIdentifier.Encode (1 :: 3 :: rest)
      = .ok (encodeHeaderSequence 6 (encodePayload (1 :: 3 :: rest)).length
          ++ encodePayload (1 :: 3 :: rest))
    ∧ decodeOID (encodePayload (1 :: 3 :: rest)).length
        (fun _ => ⟨encodePayload (1 :: 3 :: rest), none⟩)
      = .ok (1 :: 3 :: rest) (encodePayload (1 :: 3 :: rest)).length := by
  constructor
  · unfold ObjectIdentifier.Encode
    rw [if_neg (by simp), if_neg (by simp)]
  · unfold decodeOID
    simp only [min_self, List.take_length, Nat.sub_self, List.replicate,
      List.append_nil]
    rw [decodePayload_encodePayload rest h]

theorem claim_c4_round_trip_witness :
    decodeOID 7 (fun _ => ⟨[43, 6, 130, 44, 129, 156, 32], none⟩)
      = .ok [1, 3, 6, 300, 20000] 7 := by
  have h := (claim_c4_round_trip [6, 300, 20000] (by decide)).2
  have hp : encodePayload [1, 3, 6, 300, 20000] = [43, 6, 130, 44, 129, 156, 32] := by
    simp [encodePayload, concatOIDUints, encodeOIDUint, encodeOIDUintAux, reverseSlice]
  rw [hp] at h
  simpa using h

/-- C5: for a 16-bit value `v`, the base-128 primitive emits the single
byte `v` when `v < 128`, and otherwise exactly the big-endian base-128
groups of `v` with the continuation bit set on every group but the last
(each group digit being below 128). -/
theorem claim_c5_base128_encoding (v : Nat) (hv : v ≤ 65535) :
    (v < 128 → encodeOIDUint v = [v])
    ∧ (128 ≤ v → encodeOIDUint v = specMarkContinuation (specBase128Groups v)
        ∧ ∀ d ∈ specBase128Groups v, d < 128) := by
  constructor
  · exact encodeOIDUint_lt v
  · intro h128
    refine ⟨encodeOIDUint_eq_spec v h128, ?_⟩
    intro d hd
    unfold specBase128Groups at hd
    rw [List.mem_reverse] at hd
    exact digitsAux_lt 128 (by omega) v d hd

theorem claim_c5_base128_encoding_witness :
    encodeOIDUint 300 = specMarkContinuation (specBase128Groups 300)
    ∧ encodeOIDUint 129 = specMarkContinuation (specBase128Groups 129)
    ∧ encodeOIDUint 5 = [5] :=
  ⟨((claim_c5_base128_encoding 300 (by omega)).2 (by omega)).1,
   ((claim_c5_base128_encoding 129 (by omega)).2 (by omega)).1,
   (claim_c5_base128_encoding 5 (by omega)).1 (by omega)⟩

/-- C6: any OID produced by a successful parse formats to text that parses
back to the same OID. -/
theorem claim_c6_parse_format_round_trip (s oid : List Nat)
    (h : ParseOID s = .ok oid) :
    ParseOID (ObjectIdentifier.toText oid) = .ok oid := by
  unfold ParseOID at h
  obtain ⟨hb, hl⟩ := parseTokens_ok_bounds _ oid h
  obtain ⟨t, ts, hts⟩ := List.exists_cons_of_ne_nil (splitDot_ne_nil (trimDots s))
  rw [hts] at hl
  cases oid with
  | nil => simp at hl
  | cons a rest =>
    unfold ParseOID
    rw [trimDots_toText a rest, splitDot_toText rest a]
    have hmap : natToDec a :: rest.map natToDec = (a :: rest).map natToDec := rfl
    rw [hmap, parseTokens_map_natToDec _ hb]

theorem claim_c6_parse_format_round_trip_witness :
    ParseOID (ObjectIdentifier.toText [1, 3, 64000]) = .ok [1, 3, 64000] :=
  claim_c6_parse_format_round_trip [49, 46, 51, 46, 54, 52, 48, 48, 48]
    [1, 3, 64000] (by decide)

/-- C7: parse trims dots, splits on dots, and fails as a whole (returning
no partial OID) as soon as any token is empty, non-numeric, or out of the
16-bit range; `""` and `"."` fail with the syntax error for an empty
token, and `"1.3.6.1.4.1.99999"` fails with the range error. -/
theorem claim_c7_parse_errors :
    (∀ s : List Nat,
      (∃ t ∈ splitDot (trimDots s), ∃ e, parseUint16 t = .error e) →
      ∃ e', ParseOID s = .error e')
    ∧ ParseOID [] = .error .malformed
    ∧ ParseOID [46] = .error .malformed
    ∧ ParseOID [49, 46, 51, 46, 54, 46, 49, 46, 52, 46, 49, 46, 57, 57, 57, 57, 57]
        = .error .range := by
  refine ⟨?_, by decide, by decide, by decide⟩
  rintro s ⟨t, ht, e, he⟩
  exact parseTokens_error_of_mem _ t e ht he

theorem claim_c7_parse_errors_witness :
    ∃ e', ParseOID [49, 46, 120] = .error e' :=
  claim_c7_parse_errors.1 [49, 46, 120]
    ⟨[120], by decide, ParseErr.malformed, by decide⟩

/-- C8: the decoder's group accumulation pins the boundary values: bytes
`[0x81, 0x00]` decode to the single arc 128, `[0xFF, 0x7F]` to 16383, and
`[0x81, 0x80, 0x00]` to 16384. -/
theorem claim_c8_pinned_values :
    decodeArcs [129, 0] = some [128]
    ∧ decodeArcs [255, 127] = some [16383]
    ∧ decodeArcs [129, 128, 0] = some [16384] := by decide

/-- C9: a well-terminated group sequence whose mathematical value exceeds
65535 is not rejected: the 16-bit accumulator wraps and the decoder
silently returns the value reduced modulo 2^16. -/
theorem claim_c9_silent_truncation (ds : List Nat) (t : Nat)
    (hne : ds ≠ []) (hds : ∀ d ∈ ds, d < 128) (ht : t < 128)
    (hover : 65535 < groupValue (ds ++ [t])) :
    decodeArcs (ds.map (fun d => 128 + d) ++ [t])
      = some [groupValue (ds ++ [t]) % 65536] := by
  obtain ⟨d0, ds', rfl⟩ := List.exists_cons_of_ne_nil hne
  rw [decodeArcs_eq_aux _ (by simp)]
  rw [decodeArcsAux_groups (d0 :: ds') 0 t [] ht]
  show some [(fold16 0 (d0 :: ds') + t) % 65536] = _
  rw [fold16_arc, groupValue_append_singleton]

theorem claim_c9_silent_truncation_witness :
    decodeArcs [136, 128, 0] = some [0] := by
  have h := claim_c9_silent_truncation [8, 0] 0 (by decide) (by decide)
    (by decide) (by decide)
  simpa [groupValue] using h

/-- C10: every OID accepted by the root validation is encoded with the
same fixed lead payload byte `0x2b` whatever its first two arcs are; in
particular `1.5.7` and `2.3.7` (both accepted, neither starting `1.3`)
encode to the same bytes as `1.3.7`, and decoding their payload returns
first arcs `1.3` instead of the originals. -/
theorem claim_c10_fixed_lead_byte :
    (∀ oid : List Nat, 2 ≤ oid.length →
      (oid.getD 0 0 = 1 ∨ oid.getD 1 0 = 3) →
      ObjectIdentifier.Encode oid
        = .ok (encodeHeaderSequence 6 (43 :: concatOIDUints (oid.drop 2)).length
            ++ 43 :: concatOIDUints (oid.drop 2)))
    ∧ ObjectIdentifier.Encode [1, 5, 7] = ObjectIdentifier.Encode [1, 3, 7]
    ∧ ObjectIdentifier.Encode [2, 3, 7] = ObjectIdentifier.Encode [1, 3, 7]
    ∧ decodePayload (encodePayload [1, 5, 7]) = some [1, 3, 7]
    ∧ decodePayload (encodePayload [2, 3, 7]) = some [1, 3, 7] := by
  refine ⟨?_, by decide, by decide, by decide, by decide⟩
  intro oid hlen hor
  unfold ObjectIdentifier.Encode
  rw [if_neg (by omega), if_neg (by tauto)]
  rfl

theorem claim_c10_fixed_lead_byte_witness :
    ObjectIdentifier.Encode [1, 5, 7] = .ok [6, 2, 43, 7] := by
  have h := claim_c10_fixed_lead_byte.1 [1, 5, 7] (by decide) (Or.inl (by decide))
  simpa [concatOIDUints, encodeOIDUint, encodeHeaderSequence] using h
